import Mathlib

/-!
Verification of the congressional-record scraper pipeline.

Text is modelled as `List Char`.  The boundary regular expression
`(The SPEAKER|Mr\. [A-Z \-]{2,}|Ms\. [A-Z \-]{2,}|Miss [A-Z \-]{2,})`
is embedded as an explicit scanner (`matchLen`, `scanSplit`, `re_search`)
with Python `re` semantics: leftmost match, first alternative, greedy run.
-/

namespace CongRec

/-- Python `\s` over the ASCII inputs handled by the pipeline. -/
def isPySpace (c : Char) : Bool :=
  c == ' ' || c == '\t' || c == '\n' || c == '\r' || c == '\x0b' || c == '\x0c'

/-- ASCII lowercasing of one character, Python `str.lower` on the pipeline's data. -/
def pyLowerChar (c : Char) : Char :=
  if 'A' ≤ c ∧ c ≤ 'Z' then Char.ofNat (c.toNat + 32) else c

/-- Python `str.lower`. -/
def pyLower (s : List Char) : List Char := s.map pyLowerChar

/-- Drop trailing whitespace. -/
def pyStripRight (s : List Char) : List Char := (s.reverse.dropWhile isPySpace).reverse

/-- Python `str.strip()`: drop leading and trailing whitespace. -/
def pyStrip (s : List Char) : List Char := pyStripRight (s.dropWhile isPySpace)

/-- Fuel-bounded scanner for `re.sub(r"\s+", " ", text)`. -/
def collapseWsAux : Nat → List Char → List Char
  | 0, s => s
  | _ + 1, [] => []
  | f + 1, c :: cs =>
    if isPySpace c then ' ' :: collapseWsAux f (cs.dropWhile isPySpace)
    else c :: collapseWsAux f cs

/-- `re.sub(r"\s+", " ", text)`: collapse every whitespace run to a single space. -/
def collapseWs (s : List Char) : List Char := collapseWsAux s.length s

/-- Strip a literal from the front of a string, returning the rest. -/
def dropLit : List Char → List Char → Option (List Char)
  | [], s => some s
  | _ :: _, [] => none
  | l :: ls, c :: cs => if c = l then dropLit ls cs else none

/-- Length of the maximal run of characters satisfying `p` at the front. -/
def takeRunLen (p : Char → Bool) : List Char → Nat
  | [] => 0
  | c :: cs => if p c then takeRunLen p cs + 1 else 0

/-- `[A-Z]` of the boundary pattern. -/
def isPatUpper (c : Char) : Bool := 'A' ≤ c && c ≤ 'Z'

/-- The character class `[A-Z \-]` of the boundary pattern. -/
def nameChar (c : Char) : Bool := isPatUpper c || c == ' ' || c == '-'

/-- One titled alternative `lit[A-Z \-]{2,}` of the boundary pattern:
    match the literal then a greedy run of at least two name characters,
    returning the total match length. -/
def matchAlt (lit : List Char) (s : List Char) : Option Nat :=
  match dropLit lit s with
  | none => none
  | some rest =>
    let r := takeRunLen nameChar rest
    if 2 ≤ r then some (lit.length + r) else none

/-- Length of the boundary-pattern match starting at the head of `s`,
    alternatives tried in the pattern's order. -/
def matchLen (s : List Char) : Option Nat :=
  match dropLit "The SPEAKER".toList s with
  | some _ => some ("The SPEAKER".toList.length)
  | none =>
    match matchAlt "Mr. ".toList s with
    | some n => some n
    | none =>
      match matchAlt "Ms. ".toList s with
      | some n => some n
      | none => matchAlt "Miss ".toList s

/-- `re.search` of the boundary pattern: does a match start at some position? -/
def re_search : List Char → Bool
  | [] => (matchLen []).isSome
  | c :: cs => (matchLen (c :: cs)).isSome || re_search cs

/-- The scanner underlying `re.split` with a capturing group: `acc` is the
    plain text accumulated since the last match.  Fuel bounds the scan. -/
def scanSplit (fuel : Nat) (acc : List Char) (s : List Char) : List (List Char) :=
  match fuel, s with
  | 0, s => [acc ++ s]
  | _ + 1, [] => [acc]
  | f + 1, c :: cs =>
    match matchLen (c :: cs) with
    | some n => acc :: (c :: cs).take n :: scanSplit f [] ((c :: cs).drop n)
    | none => scanSplit f (acc ++ [c]) cs

/-- `re.split(regex_split_pattern, s)` with the capturing boundary pattern. -/
def re_split (s : List Char) : List (List Char) := scanSplit s.length [] s

/-- The scanner collecting only the boundary matches (the captured segments). -/
def matchesScan (fuel : Nat) (s : List Char) : List (List Char) :=
  match fuel, s with
  | 0, _ => []
  | _ + 1, [] => []
  | f + 1, c :: cs =>
    match matchLen (c :: cs) with
    | some n => (c :: cs).take n :: matchesScan f ((c :: cs).drop n)
    | none => matchesScan f cs

/-- All boundary-pattern matches of `s`, in order. -/
def boundary_matches (s : List Char) : List (List Char) := matchesScan s.length s

/-! ## Speech Segmenter: index classification and validation (`parse_articles`) -/

/-- `[i for i, s in enumerate(article_split) if re.search(regex_split_pattern, s)]`. -/
def speaker_ixs (article_split : List (List Char)) : List Nat :=
  (article_split.enum.filter (fun is => re_search is.2)).map Prod.fst

/-- `[ix+1 for ix in speaker_ixs]`. -/
def speech_ixs (article_split : List (List Char)) : List Nat :=
  (speaker_ixs article_split).map (· + 1)

/-- `[i for i, s in enumerate(article_split) if i not in speaker_ixs + speech_ixs]`. -/
def undefined_ixs (article_split : List (List Char)) : List Nat :=
  (List.range article_split.length).filter
    (fun i => !(decide (i ∈ speaker_ixs article_split ++ speech_ixs article_split)))

/-- `len(speaker_ixs + speech_ixs + undefined_ixs) == len(article_split)`. -/
def ix_len_check (l : List (List Char)) : Bool :=
  (speaker_ixs l ++ speech_ixs l ++ undefined_ixs l).length == l.length

/-- `set(speaker_ixs).issubset(set(range(len(article_split))))`. -/
def speaker_ixs_check (l : List (List Char)) : Bool :=
  (speaker_ixs l).all (· < l.length)

/-- `set(speech_ixs).issubset(set(range(len(article_split))))`. -/
def speech_ixs_check (l : List (List Char)) : Bool :=
  (speech_ixs l).all (· < l.length)

/-- `set(undefined_ixs).issubset(set(range(len(article_split))))`. -/
def undefined_ixs_check (l : List (List Char)) : Bool :=
  (undefined_ixs l).all (· < l.length)

/-- `len(speaker_ixs) == len(speech_ixs)`. -/
def speaker_speech_correspond_check (l : List (List Char)) : Bool :=
  (speaker_ixs l).length == (speech_ixs l).length

def msg_ix_len : String :=
  "Error in splitting attribution. Total number of indices greater than splits"
def msg_speech : String :=
  "Error in speech attribution. Speech index not in index range"
def msg_speaker : String :=
  "Error in speaker attribution. Speaker index not in index range"
def msg_undefined : String :=
  "Error in undefined text attribution. Indices not in index range"
def msg_correspond : String :=
  "Error in speaker-speech correspondence. Speaker index does not match speech index"

/-- The five early-return checks of `parse_articles`, in source order:
    the first failing check's message, `none` on success. -/
def validate_split (l : List (List Char)) : Option String :=
  if !ix_len_check l then some msg_ix_len
  else if !speech_ixs_check l then some msg_speech
  else if !speaker_ixs_check l then some msg_speaker
  else if !undefined_ixs_check l then some msg_undefined
  else if !speaker_speech_correspond_check l then some msg_correspond
  else none

/-- Fuel-bounded scanner for `str.replace(pat, "")`: at each position, if the
    (non-empty) pattern starts here skip it, else keep the character. -/
def removeAllAux (pat : List Char) : Nat → List Char → List Char
  | 0, s => s
  | _ + 1, [] => []
  | f + 1, c :: cs =>
    match dropLit pat (c :: cs) with
    | some rest => if pat.length = 0 then c :: cs else removeAllAux pat f rest
    | none => c :: removeAllAux pat f cs

/-- Python `str.replace(pat, "")` scanning left to right, non-overlapping. -/
def removeAll (pat : List Char) (s : List Char) : List Char :=
  removeAllAux pat s.length s

/-- The last-written binding wins, as in a Python dict built by comprehension;
    `get` with default `"Not Found"`. -/
def dictGet (m : List (List Char × List Char)) (k : List Char) : List Char :=
  ((m.reverse.find? (fun kv => decide (kv.1 = k))).map Prod.snd).getD "Not Found".toList

/-- `get_party` from `parse_articles`: lowercase, delete `"mr."` and `"ms."`,
    strip, then look up with default `"Not Found"`. -/
def get_party (speaker : List Char) (mapping : List (List Char × List Char)) : List Char :=
  let procced_speaker := pyStrip (removeAll "ms.".toList (removeAll "mr.".toList (pyLower speaker)))
  dictGet mapping procced_speaker

/-- One output entry of `article_speeches`; the NLP stage is the external
    collaborator, so the speech payload type is a parameter. -/
structure SpeechRec (σ : Type) where
  speaker : List Char
  party : List Char
  speech : σ
deriving DecidableEq

/-- `speech["speaker"].lower().strip()`, the normalization of the final filter. -/
def norm_speaker (s : List Char) : List Char := pyStrip (pyLower s)

/-- The pure core of `parse_articles`: whitespace collapse, capturing split,
    validation with early-returned message, record construction, and the
    "the speaker" filter.  `procSpeech` abstracts the spaCy pipeline. -/
def parse_articles {σ : Type} (procSpeech : List Char → σ)
    (speaker_lname_mapping : List (List Char × List Char)) (article_text : List Char) :
    Except String (List (SpeechRec σ)) :=
  let article_cleantext := collapseWs article_text
  let article_split := re_split article_cleantext
  match validate_split article_split with
  | some err => .error err
  | none =>
    let article_speeches :=
      ((speaker_ixs article_split).zip (speech_ixs article_split)).map
        (fun p =>
          { speaker := article_split.getD p.1 []
            party := get_party (article_split.getD p.1 []) speaker_lname_mapping
            speech := procSpeech (article_split.getD p.2 []) })
    .ok (article_speeches.filter
      (fun sp => !(decide (norm_speaker sp.speaker = "the speaker".toList))))

/-! ## Roster Resolver (`speaker_lname_mapping` construction) -/

/-- One row of the selected columns `["last_name", "chamber", "partyName"]`. -/
structure RosterRow where
  last_name : List Char
  chamber : List Char
  party : List Char
deriving DecidableEq

/-- Fuel-bounded recursion for `drop_duplicates`. -/
def pdDropDupAux : Nat → List RosterRow → List RosterRow
  | 0, l => l
  | _ + 1, [] => []
  | f + 1, r :: rs => r :: pdDropDupAux f (rs.filter (fun x => !(decide (x = r))))

/-- `DataFrame.drop_duplicates()`: keep the first occurrence of each row value. -/
def pdDropDup (l : List RosterRow) : List RosterRow := pdDropDupAux l.length l

/-- `groupby(["last_name", "chamber"]).transform("count")` for one row:
    the size of the row's (last_name, chamber) group. -/
def groupCount (rows : List RosterRow) (r : RosterRow) : Nat :=
  (rows.filter (fun x => decide (x.last_name = r.last_name ∧ x.chamber = r.chamber))).length

/-- `.loc[last_name_counts > 1, "partyName"] = "Ambiguous"`. -/
def relabelAmbiguous (rows : List RosterRow) : List RosterRow :=
  rows.map (fun r =>
    if 1 < groupCount rows r then { r with party := "Ambiguous".toList } else r)

/-- The construction of `speaker_lname_mapping`: drop duplicate rows, relabel
    collided (last_name, chamber) groups, then the dict comprehension
    `{speaker.lower(): party for ...}` (as the ordered binding list;
    `dictGet` applies the later-binding-wins dict semantics). -/
def speaker_lname_mapping (raw : List RosterRow) : List (List Char × List Char) :=
  (relabelAmbiguous (pdDropDup raw)).map (fun r => (pyLower r.last_name, r.party))

/-- Modelled from the spec's words for the C2 policy sentence (no
    deduplication step): group the raw rows as given, relabel any
    (last_name, chamber) group with more than one row. -/
def speaker_lname_mapping_specWorded (raw : List RosterRow) : List (List Char × List Char) :=
  (relabelAmbiguous raw).map (fun r => (pyLower r.last_name, r.party))

/-! ## NLP token filter (`proc_speech`) -/

/-- A spaCy token: its lemma and part-of-speech tag. -/
structure Token where
  lemma_ : List Char
  pos_ : List Char
deriving DecidableEq

/-- `token.pos_ == "NOUN" or token.pos_ == "ADJ"`. -/
def keptPos (t : Token) : Bool := decide (t.pos_ = "NOUN".toList) || decide (t.pos_ = "ADJ".toList)

/-- The pure core of `proc_speech` on the spaCy sentence structure:
    per sentence keep the lowercased lemmas of noun/adjective tokens,
    then keep only sentence groups longer than 3. -/
def proc_speech (sents : List (List Token)) : List (List (List Char)) :=
  let txt_model := sents.map (fun doc => (doc.filter keptPos).map (fun t => pyLower t.lemma_))
  txt_model.filter (fun sent => 3 < sent.length)

/-- The C5 sentence's own phrasing of the filter: select the sentences with
    more than 3 kept tokens, and for those emit the kept lemmas. -/
def token_filter_specWorded (sents : List (List Token)) : List (List (List Char)) :=
  (sents.filter (fun doc => 3 < (doc.filter keptPos).length)).map
    (fun doc => (doc.filter keptPos).map (fun t => pyLower t.lemma_))

/-! ## Paginated Collector (`proc_issue` of `gen_record_urls.py`) -/

/-- One entry of an article's `"text"` list. -/
structure TextItem where
  type : String
  url : String
deriving DecidableEq

/-- One article of a section. -/
structure IssueArticle where
  title : String
  text : List TextItem
deriving DecidableEq

/-- One section of an issue response page. -/
structure IssueSection where
  name : String
  sectionArticles : List IssueArticle
deriving DecidableEq

/-- One page of the issue JSON response; `hasNext` models
    `"next" in issue_response["pagination"]`. -/
structure IssuePage where
  articles : List IssueSection
  hasNext : Bool
deriving DecidableEq

/-- `next(item for item in article["text"] if item["type"] == "Formatted Text")`:
    the first such item, a `StopIteration` hard error when none exists. -/
def formatted_url (a : IssueArticle) : Except String String :=
  match a.text.find? (fun item => item.type == "Formatted Text") with
  | some item => .ok item.url
  | none => .error "StopIteration: no Formatted Text representation"

/-- The inner `for article in section["sectionArticles"]` loop: the collected
    `[section name, article title, url]` entries, the first `StopIteration`
    propagating. -/
def articlesItems (secName : String) :
    List IssueArticle → Except String (List (String × String × String))
  | [] => .ok []
  | a :: as =>
    match formatted_url a with
    | .error e => .error e
    | .ok u =>
      match articlesItems secName as with
      | .error e => .error e
      | .ok rest => .ok ((secName, a.title, u) :: rest)

/-- The outer `for section in issue_sections` loop. -/
def sectionsItems : List IssueSection → Except String (List (String × String × String))
  | [] => .ok []
  | sec :: secs =>
    match articlesItems sec.name sec.sectionArticles with
    | .error e => .error e
    | .ok items =>
      match sectionsItems secs with
      | .error e => .error e
      | .ok rest => .ok (items ++ rest)

/-- The per-page double loop of `proc_issue`: section name, article title and
    formatted-text url for every article, first failure propagating. -/
def pageItems (p : IssuePage) : Except String (List (String × String × String)) :=
  sectionsItems p.articles

/-- The items the traversal is meant to emit for a page whose articles all
    carry a formatted-text representation. -/
def pageItemsPure (p : IssuePage) : List (String × String × String) :=
  p.articles.flatMap (fun sec =>
    sec.sectionArticles.filterMap (fun article =>
      (article.text.find? (fun item => item.type == "Formatted Text")).map
        (fun item => (sec.name, article.title, item.url))))

/-- The `while "next" in ...` loop of `proc_issue`, with the accumulated
    `issue_dta`: the current page is processed and the cursor followed while a
    `next` link is present; the terminal page is processed after the loop. -/
def proc_issue_loop (acc : List (String × String × String)) :
    IssuePage → List IssuePage → Except String (List (String × String × String))
  | page, rest =>
    if page.hasNext then
      match pageItems page with
      | .error e => .error e
      | .ok items =>
        match rest with
        | [] => .error "next page request failed"
        | p :: ps => proc_issue_loop (acc ++ items) p ps
    else
      match pageItems page with
      | .error e => .error e
      | .ok items => .ok (acc ++ items)

/-- `proc_issue`, over the page sequence the cursor chain would fetch. -/
def proc_issue (first : IssuePage) (rest : List IssuePage) :
    Except String (List (String × String × String)) :=
  proc_issue_loop [] first rest

/-- Every non-terminal page carries a `next` link and the terminal page does not. -/
def chainWf : IssuePage → List IssuePage → Bool
  | page, [] => !page.hasNext
  | page, p :: ps => page.hasNext && chainWf p ps

/-- Every article of the page has a `"Formatted Text"` representation. -/
def pageAllFound (p : IssuePage) : Bool :=
  p.articles.all (fun sec =>
    sec.sectionArticles.all (fun article =>
      article.text.any (fun item => item.type == "Formatted Text")))

/-! ## Article Fetcher (`proc_article` of `pull_records.py`) -/

/-- The row fields `proc_article` reads. -/
structure PullRow where
  volume : Nat
  issue : Nat
  sect : String
  article_title_lower : List Char
deriving DecidableEq

/-- `[0-9]` test for the title-cleaning pattern. -/
def isDigitCh (c : Char) : Bool := '0' ≤ c && c ≤ '9'

/-- Match of `"; congressional record vol. [0-9]+, no. [0-9]+"` at the head of
    `s`, returning the match length. -/
def volAnnotLen (s : List Char) : Option Nat :=
  match dropLit "; congressional record vol. ".toList s with
  | none => none
  | some rest1 =>
    let d1 := takeRunLen isDigitCh rest1
    if 1 ≤ d1 then
      match dropLit ", no. ".toList (rest1.drop d1) with
      | none => none
      | some rest2 =>
        let d2 := takeRunLen isDigitCh rest2
        if 1 ≤ d2 then
          some ("; congressional record vol. ".toList.length + d1 +
                ", no. ".toList.length + d2)
        else none
    else none

/-- Fuel-bounded scanner for `re.sub(op_fclean, "", title)`. -/
def subVolAnnotAux : Nat → List Char → List Char
  | 0, s => s
  | _ + 1, [] => []
  | f + 1, c :: cs =>
    match volAnnotLen (c :: cs) with
    | some n => subVolAnnotAux f ((c :: cs).drop n)
    | none => c :: subVolAnnotAux f cs

/-- `re.sub(r"; congressional record vol. [0-9]+, no. [0-9]+", "", title)`. -/
def subVolAnnot (s : List Char) : List Char := subVolAnnotAux s.length s

/-- Replace every `'/'` with `' '` (`article_title.replace("/", " ")`). -/
def slashToSpace (s : List Char) : List Char :=
  s.map (fun c => if c = '/' then ' ' else c)

/-- `os.path.join` over the components used here. -/
def joinPath (parts : List String) : String := String.intercalate "/" parts

/-- The sentinel recorded on a per-article failure. -/
def errSentinel : String := "Error when pulling"

/-- The pure core of `proc_article`.  The `try` block's fetch-and-clean (HTTP
    plus HTML stripping, both external collaborators) is abstracted as
    `fetch_clean`, `none` modelling an exception.  The result is the
    `(path, content)` pair written to disk together with the returned path. -/
def proc_article (rootpath : String) (row : PullRow) (fetch_clean : Option String) :
    (String × String) × String :=
  let article_title := subVolAnnot row.article_title_lower
  let op_fname := String.mk (slashToSpace article_title) ++ ".txt"
  let op_fpath := joinPath [rootpath, toString row.volume, toString row.issue,
                            row.sect, op_fname]
  match fetch_clean with
  | some cleantext => ((op_fpath, cleantext), op_fpath)
  | none => ((errSentinel, errSentinel), errSentinel)

/-- The `req_articles.apply(proc_article, ...)` batch: the recorded
    `article_fpath` column, one entry per input row. -/
def pull_batch (rootpath : String) (rows : List PullRow)
    (fetch_clean : PullRow → Option String) : List String :=
  rows.map (fun r => (proc_article rootpath r (fetch_clean r)).2)

/-! ## Basic lemmas -/

theorem correspond_check_true (l : List (List Char)) :
    speaker_speech_correspond_check l = true := by
  simp [speaker_speech_correspond_check, speech_ixs]

theorem validate_split_ne_correspond (l : List (List Char)) :
    validate_split l ≠ some msg_correspond := by
  unfold validate_split
  rw [correspond_check_true l]
  split_ifs <;> simp_all <;> decide

/-! ## Claim theorems (easy group) -/

/-- C10: the fifth validation check (speaker-index count equals speech-index
    count) succeeds for every input article text, because the speech-index
    list is one-plus-each speaker index; the corresponding error branch is
    unreachable for any split whatsoever. -/
theorem claim_C10 (article_text : List Char) :
    speaker_speech_correspond_check (re_split (collapseWs article_text)) = true ∧
    ∀ l : List (List Char), validate_split l ≠ some msg_correspond :=
  ⟨correspond_check_true _, validate_split_ne_correspond⟩

/-- C5: the token-filtering step keeps, per sentence, exactly the lemmas of
    tokens tagged NOUN or ADJ, and keeps only the sentence groups with more
    than 3 such tokens; it agrees with the spec-worded filter and every kept
    group has length greater than 3. -/
theorem claim_C5 (sents : List (List Token)) :
    proc_speech sents = token_filter_specWorded sents ∧
    ∀ g ∈ proc_speech sents, 3 < g.length := by
  constructor
  · unfold proc_speech token_filter_specWorded
    rw [List.filter_map]
    congr 1
    apply List.filter_congr
    intro doc _
    simp [Function.comp, List.length_map]
  · intro g hg
    unfold proc_speech at hg
    simp only [List.mem_filter, decide_eq_true_eq] at hg
    exact hg.2

/-- C10 witness at a concrete article text and a concrete synthetic split. -/
theorem claim_C10_witness :
    speaker_speech_correspond_check (re_split (collapseWs "Mr. AB. Hi.".toList)) = true ∧
    validate_split ["Mr. AB".toList] ≠ some msg_correspond :=
  ⟨(claim_C10 "Mr. AB. Hi.".toList).1, (claim_C10 "Mr. AB. Hi.".toList).2 ["Mr. AB".toList]⟩

/-- C5 witness at a concrete one-sentence document with four kept tokens. -/
theorem claim_C5_witness :
    proc_speech [[⟨"Big".toList, "ADJ".toList⟩, ⟨"red".toList, "ADJ".toList⟩,
        ⟨"dog".toList, "NOUN".toList⟩, ⟨"cat".toList, "NOUN".toList⟩,
        ⟨"runs".toList, "VERB".toList⟩]] =
      token_filter_specWorded [[⟨"Big".toList, "ADJ".toList⟩, ⟨"red".toList, "ADJ".toList⟩,
        ⟨"dog".toList, "NOUN".toList⟩, ⟨"cat".toList, "NOUN".toList⟩,
        ⟨"runs".toList, "VERB".toList⟩]] ∧
    3 < ["big".toList, "red".toList, "dog".toList, "cat".toList].length :=
  ⟨(claim_C5 _).1,
    (claim_C5 [[⟨"Big".toList, "ADJ".toList⟩, ⟨"red".toList, "ADJ".toList⟩,
        ⟨"dog".toList, "NOUN".toList⟩, ⟨"cat".toList, "NOUN".toList⟩,
        ⟨"runs".toList, "VERB".toList⟩]]).2
      ["big".toList, "red".toList, "dog".toList, "cat".toList] (by decide)⟩

/-- C7: when fetching or cleaning a single article fails, `proc_article`
    records the sentinel `"Error when pulling"` as both the written path and
    the written content as well as the returned path, and the batch still
    produces exactly one output path entry per input row. -/
theorem claim_C7 (rootpath : String) (row : PullRow) (rows : List PullRow)
    (fetch_clean : PullRow → Option String) :
    proc_article rootpath row none = ((errSentinel, errSentinel), errSentinel) ∧
    (pull_batch rootpath rows fetch_clean).length = rows.length :=
  ⟨rfl, List.length_map _ _⟩

/-! ## Roster lemmas and C2 -/

theorem pdDropDupAux_subset : ∀ (fuel : Nat) (l : List RosterRow), pdDropDupAux fuel l ⊆ l := by
  intro fuel
  induction fuel with
  | zero => intro l; exact fun _ h => h
  | succ f ih =>
    intro l
    cases l with
    | nil => simp [pdDropDupAux]
    | cons r rs =>
      rw [pdDropDupAux]
      intro x hx
      rcases List.mem_cons.1 hx with h | h
      · exact h ▸ List.mem_cons_self _ _
      · exact List.mem_cons_of_mem _ (List.mem_of_mem_filter (ih _ h))

theorem pdDropDup_subset (l : List RosterRow) : pdDropDup l ⊆ l :=
  pdDropDupAux_subset l.length l

theorem pdDropDupAux_fuel : ∀ (f1 f2 : Nat) (l : List RosterRow),
    l.length ≤ f1 → l.length ≤ f2 → pdDropDupAux f1 l = pdDropDupAux f2 l := by
  intro f1
  induction f1 with
  | zero =>
    intro f2 l h1 _
    rw [List.length_eq_zero.1 (Nat.le_zero.1 h1)]
    cases f2 <;> rfl
  | succ f ih =>
    intro f2 l h1 h2
    cases l with
    | nil => cases f2 <;> rfl
    | cons r rs =>
      cases f2 with
      | zero => simp at h2
      | succ g =>
        rw [pdDropDupAux, pdDropDupAux]
        have hle : (rs.filter (fun x => !(decide (x = r)))).length ≤ rs.length :=
          List.length_filter_le _ _
        simp only [List.length_cons, Nat.succ_le_succ_iff] at h1 h2
        rw [ih g _ (le_trans hle h1) (le_trans hle h2)]

theorem mapping_keys (raw : List RosterRow) (kv : List Char × List Char)
    (h : kv ∈ speaker_lname_mapping raw) :
    ∃ r ∈ raw, kv.1 = pyLower r.last_name := by
  unfold speaker_lname_mapping relabelAmbiguous at h
  rw [List.map_map] at h
  obtain ⟨r, hr, hkv⟩ := List.mem_map.1 h
  refine ⟨r, pdDropDup_subset raw hr, ?_⟩
  subst hkv
  by_cases hc : 1 < groupCount (pdDropDup raw) r <;> simp [Function.comp, hc]

theorem dictGet_absent (m : List (List Char × List Char)) (k : List Char)
    (h : ∀ kv ∈ m, kv.1 ≠ k) : dictGet m k = "Not Found".toList := by
  unfold dictGet
  rw [List.find?_eq_none.2]
  · rfl
  · intro kv hkv
    simpa using h kv (List.mem_reverse.1 hkv)

theorem pdDropDup_cons_dup (r : RosterRow) (l : List RosterRow) :
    pdDropDup (r :: r :: l) = pdDropDup (r :: l) := by
  unfold pdDropDup
  simp only [List.length_cons]
  rw [pdDropDupAux, pdDropDupAux]
  simp only [List.filter_cons, decide_eq_true_eq]
  rw [if_neg (by simp)]
  exact congrArg _ (pdDropDupAux_fuel _ _ _ (le_trans (List.length_filter_le _ _) (by omega))
    (le_trans (List.length_filter_le _ _) (by omega)))

/-- C2 counterexample: with the raw roster containing the same
    (last_name, chamber, party) row twice, the claimed group-the-raw-rows
    policy labels the group "Ambiguous", while the code deduplicates first
    and yields the plain party. -/
theorem claim_C2_counterexample :
    dictGet (speaker_lname_mapping
        [⟨"Smith".toList, "House".toList, "R".toList⟩,
         ⟨"Smith".toList, "House".toList, "R".toList⟩]) "smith".toList = "R".toList ∧
    dictGet (speaker_lname_mapping_specWorded
        [⟨"Smith".toList, "House".toList, "R".toList⟩,
         ⟨"Smith".toList, "House".toList, "R".toList⟩]) "smith".toList =
      "Ambiguous".toList := by
  exact ⟨by decide, by decide⟩

/-- C2 (amended): the lookup is built by first dropping duplicate
    (last_name, chamber, party) rows, then grouping by (last_name, chamber)
    and relabeling groups with more than one remaining row to "Ambiguous",
    then discarding chamber into a lowercased-last-name map with
    later-row-wins dict semantics; the claim's three lookup consequences
    hold, an absent name yields "Not Found", and an exactly-duplicated raw
    row never creates ambiguity. -/
theorem claim_C2 :
    dictGet (speaker_lname_mapping
        [⟨"Smith".toList, "House".toList, "R".toList⟩,
         ⟨"Smith".toList, "House".toList, "D".toList⟩]) "smith".toList =
      "Ambiguous".toList ∧
    dictGet (speaker_lname_mapping
        [⟨"Jones".toList, "Senate".toList, "D".toList⟩]) "jones".toList = "D".toList ∧
    (∀ (raw : List RosterRow) (k : List Char),
      (∀ r ∈ raw, pyLower r.last_name ≠ k) →
        dictGet (speaker_lname_mapping raw) k = "Not Found".toList) ∧
    (∀ (r : RosterRow) (l : List RosterRow),
      speaker_lname_mapping (r :: r :: l) = speaker_lname_mapping (r :: l)) := by
  refine ⟨by decide, by decide, ?_, ?_⟩
  · intro raw k h
    apply dictGet_absent
    intro kv hkv
    obtain ⟨r, hr, hk⟩ := mapping_keys raw kv hkv
    exact hk ▸ h r hr
  · intro r l
    unfold speaker_lname_mapping
    rw [pdDropDup_cons_dup]

/-- C2 witness: lookup of a name absent from a concrete roster yields
    "Not Found". -/
theorem claim_C2_witness :
    dictGet (speaker_lname_mapping
        [⟨"Jones".toList, "Senate".toList, "D".toList⟩]) "absent".toList =
      "Not Found".toList :=
  claim_C2.2.2.1 [⟨"Jones".toList, "Senate".toList, "D".toList⟩] "absent".toList
    (by decide)

/-! ## Normalization lemmas and C9 -/

theorem dropLit_eq_some : ∀ (lit s r : List Char), dropLit lit s = some r ↔ s = lit ++ r := by
  intro lit
  induction lit with
  | nil => intro s r; simp [dropLit, eq_comm]
  | cons l ls ih =>
    intro s r
    cases s with
    | nil => simp [dropLit]
    | cons c cs =>
      rw [dropLit]
      by_cases hc : c = l
      · rw [if_pos hc, ih]
        simp [hc]
      · rw [if_neg hc]
        simp [hc]

theorem removeAllAux_id (pat : List Char) (c : Char) (hc : c ∈ pat) :
    ∀ (fuel : Nat) (s : List Char), c ∉ s → removeAllAux pat fuel s = s := by
  intro fuel
  induction fuel with
  | zero => intro s _; rfl
  | succ f ih =>
    intro s hs
    cases s with
    | nil => rfl
    | cons a as =>
      rw [removeAllAux]
      cases hd : dropLit pat (a :: as) with
      | some rest =>
        exact absurd ((dropLit_eq_some pat (a :: as) rest).1 hd ▸
          List.mem_append_left rest hc) hs
      | none =>
        rw [ih as (fun h => hs (List.mem_cons_of_mem a h))]

theorem removeAll_id (pat : List Char) (c : Char) (hc : c ∈ pat)
    (s : List Char) (hs : c ∉ s) : removeAll pat s = s :=
  removeAllAux_id pat c hc s.length s hs

theorem toNat_ofNat_lower (n : Nat) (h1 : 97 ≤ n) (h2 : n ≤ 122) :
    (Char.ofNat n).toNat = n := by
  have hv : n.isValidChar := Or.inl (by omega)
  simp only [Char.ofNat, hv, dif_pos]
  rfl

theorem char_ne_of_toNat_ne {c d : Char} (h : c.toNat ≠ d.toNat) : c ≠ d :=
  fun he => h (he ▸ rfl)

theorem pyLowerChar_toNat (c : Char) (h : nameChar c = true) (hne : c ≠ ' ') :
    97 ≤ (pyLowerChar c).toNat ∧ (pyLowerChar c).toNat ≤ 122 ∨ pyLowerChar c = '-' := by
  simp only [nameChar, isPatUpper, Bool.or_eq_true, Bool.and_eq_true, decide_eq_true_eq,
    beq_iff_eq] at h
  rcases h with (⟨hA, hZ⟩ | h) | h
  · left
    rw [Char.le_def] at hA hZ
    have hA' : 65 ≤ c.toNat := hA
    have hZ' : c.toNat ≤ 90 := hZ
    unfold pyLowerChar
    rw [if_pos ⟨by rw [Char.le_def]; exact hA, by rw [Char.le_def]; exact hZ⟩]
    rw [toNat_ofNat_lower (c.toNat + 32) (by omega) (by omega)]
    omega
  · exact absurd h hne
  · right
    subst h
    decide

theorem pyLowerChar_ne_dot (c : Char) (h : nameChar c = true) : pyLowerChar c ≠ '.' := by
  by_cases hsp : c = ' '
  · subst hsp; decide
  · rcases pyLowerChar_toNat c h hsp with ⟨h1, _⟩ | h1
    · apply char_ne_of_toNat_ne
      have hdot : ('.' : Char).toNat = 46 := rfl
      omega
    · rw [h1]; decide

theorem pyLowerChar_not_space (c : Char) (h : nameChar c = true) (hne : c ≠ ' ') :
    isPySpace (pyLowerChar c) = false := by
  rcases pyLowerChar_toNat c h hne with ⟨h1, h2⟩ | h1
  · unfold isPySpace
    have : ∀ d : Char, d.toNat < 97 → (pyLowerChar c == d) = false := by
      intro d hd
      exact beq_eq_false_iff_ne.2 (char_ne_of_toNat_ne (by omega))
    rw [this ' ' (by decide), this '\t' (by decide), this '\n' (by decide),
      this '\r' (by decide), this '\x0b' (by decide), this '\x0c' (by decide)]
    rfl
  · rw [h1]; decide

theorem pyStripRight_append (a b : List Char) (hb : pyStripRight b ≠ []) :
    pyStripRight (a ++ b) = a ++ pyStripRight b := by
  unfold pyStripRight at *
  rw [List.reverse_append, List.dropWhile_append]
  have hne : (b.reverse.dropWhile isPySpace).isEmpty = false := by
    cases h : b.reverse.dropWhile isPySpace with
    | nil => exact absurd (by rw [h]; rfl) hb
    | cons x xs => rfl
  rw [if_neg (by rw [hne]; exact Bool.false_ne_true)]
  rw [List.reverse_append, List.reverse_reverse]

/-- C9: a boundary match of the `Miss <UPPERCASE NAME>` alternative — the
    literal `"Miss "` followed by at least two characters of `[A-Z \-]`, not
    all spaces — resolves to party "Not Found" against any mapping none of
    whose keys begins with `"miss "` (in particular one keyed by bare
    lowercased last names), because `get_party` strips only `"mr."` and
    `"ms."` and leaves `"miss "` in the lookup key. -/
theorem claim_C9 (name : List Char) (mapping : List (List Char × List Char))
    (h1 : name.all nameChar = true) (h2 : 2 ≤ name.length)
    (h3 : ∃ c ∈ name, c ≠ ' ')
    (h4 : ∀ kv ∈ mapping, kv.1.take 5 ≠ "miss ".toList) :
    get_party ("Miss ".toList ++ name) mapping = "Not Found".toList := by
  clear h2
  obtain ⟨c0, hc0mem, hc0⟩ := h3
  have hname : ∀ c ∈ name, nameChar c = true := fun c hc => List.all_eq_true.1 h1 c hc
  have hlow : pyLower ("Miss ".toList ++ name) = "miss ".toList ++ pyLower name := by
    unfold pyLower
    rw [List.map_append]
    rfl
  have hdotname : ('.' : Char) ∉ "miss ".toList ++ pyLower name := by
    intro hmem
    rcases List.mem_append.1 hmem with hl | hr
    · exact absurd hl (by decide)
    · obtain ⟨c, hc, hcl⟩ := List.mem_map.1 hr
      exact pyLowerChar_ne_dot c (hname c hc) hcl
  have hstrip : pyStripRight (pyLower name) ≠ [] := by
    intro hnil
    unfold pyStripRight at hnil
    rw [List.reverse_eq_nil_iff, List.dropWhile_eq_nil_iff] at hnil
    have hsp := hnil (pyLowerChar c0)
      (by rw [List.mem_reverse]; exact List.mem_map_of_mem _ hc0mem)
    rw [pyLowerChar_not_space c0 (hname c0 hc0mem) hc0] at hsp
    exact Bool.false_ne_true hsp
  unfold get_party
  rw [hlow, removeAll_id _ '.' (by decide) _ hdotname,
    removeAll_id _ '.' (by decide) _ hdotname]
  have hdw : ("miss ".toList ++ pyLower name).dropWhile isPySpace =
      "miss ".toList ++ pyLower name := by
    show ('m' :: ("iss ".toList ++ pyLower name)).dropWhile isPySpace = _
    rw [List.dropWhile_cons, if_neg (by decide)]
    rfl
  have hps : pyStrip ("miss ".toList ++ pyLower name) =
      "miss ".toList ++ pyStripRight (pyLower name) := by
    unfold pyStrip
    rw [hdw]
    exact pyStripRight_append _ _ hstrip
  rw [hps]
  have hfind : mapping.reverse.find?
      (fun kv => decide (kv.1 = "miss ".toList ++ pyStripRight (pyLower name))) = none := by
    apply List.find?_eq_none.2
    intro kv hkv
    simp only [decide_eq_true_eq]
    intro heq
    apply h4 kv (List.mem_reverse.1 hkv)
    rw [heq]
    have h5 : ("miss ".toList).length = 5 := rfl
    rw [← h5, List.take_left]
  show (Option.map Prod.snd (mapping.reverse.find?
      (fun kv => decide (kv.1 = "miss ".toList ++ pyStripRight (pyLower name))))).getD
      "Not Found".toList = "Not Found".toList
  rw [hfind]
  rfl

/-- C9 witness at the concrete match `"Miss SMITH"` against a bare-last-name
    roster containing `"smith"`. -/
theorem claim_C9_witness :
    ("SMITH".toList.all nameChar = true) ∧ 2 ≤ "SMITH".toList.length ∧
    get_party ("Miss ".toList ++ "SMITH".toList) [("smith".toList, "R".toList)] =
      "Not Found".toList :=
  ⟨by decide, by decide,
    claim_C9 "SMITH".toList [("smith".toList, "R".toList)] (by decide) (by decide)
      ⟨'S', by decide, by decide⟩ (by decide)⟩

/-! ## Collector lemmas, C4 and C6 -/

theorem articlesItems_ok (secName : String) :
    ∀ arts : List IssueArticle,
    (∀ a ∈ arts, a.text.any (fun item => item.type == "Formatted Text") = true) →
    articlesItems secName arts = .ok (arts.filterMap (fun article =>
      (article.text.find? (fun item => item.type == "Formatted Text")).map
        (fun item => (secName, article.title, item.url)))) := by
  intro arts
  induction arts with
  | nil => intro _; rfl
  | cons a as ih =>
    intro h
    have ha := h a (List.mem_cons_self _ _)
    rw [List.any_eq_true] at ha
    obtain ⟨x, hx, hpx⟩ := ha
    cases hitem : a.text.find? (fun item => item.type == "Formatted Text") with
    | none => exact absurd hpx (List.find?_eq_none.1 hitem x hx)
    | some item =>
      rw [articlesItems, formatted_url, hitem]
      rw [ih (fun a ha => h a (List.mem_cons_of_mem _ ha))]
      rw [List.filterMap_cons, hitem]
      rfl

theorem sectionsItems_ok :
    ∀ secs : List IssueSection,
    (∀ sec ∈ secs, ∀ a ∈ sec.sectionArticles,
      a.text.any (fun item => item.type == "Formatted Text") = true) →
    sectionsItems secs = .ok (secs.flatMap (fun sec =>
      sec.sectionArticles.filterMap (fun article =>
        (article.text.find? (fun item => item.type == "Formatted Text")).map
          (fun item => (sec.name, article.title, item.url))))) := by
  intro secs
  induction secs with
  | nil => intro _; rfl
  | cons sec secs ih =>
    intro h
    rw [sectionsItems, articlesItems_ok sec.name sec.sectionArticles
      (h sec (List.mem_cons_self _ _))]
    rw [ih (fun s hs => h s (List.mem_cons_of_mem _ hs))]
    rw [List.flatMap_cons]

theorem pageItems_ok (p : IssuePage) (h : pageAllFound p = true) :
    pageItems p = .ok (pageItemsPure p) := by
  unfold pageItems pageItemsPure
  apply sectionsItems_ok
  intro sec hsec a ha
  rw [pageAllFound, List.all_eq_true] at h
  have := h sec hsec
  rw [List.all_eq_true] at this
  exact this a ha

theorem proc_issue_loop_ok :
    ∀ (rest : List IssuePage) (first : IssuePage) (acc : List (String × String × String)),
    chainWf first rest = true → (first :: rest).all pageAllFound = true →
    proc_issue_loop acc first rest =
      .ok (acc ++ ((first :: rest).map pageItemsPure).flatten) := by
  intro rest
  induction rest with
  | nil =>
    intro first acc hchain hfound
    rw [chainWf] at hchain
    rw [List.all_cons, Bool.and_eq_true] at hfound
    rw [proc_issue_loop, if_neg (by rw [Bool.not_eq_true'] at hchain; rw [hchain]; simp)]
    rw [pageItems_ok first hfound.1]
    show Except.ok (acc ++ pageItemsPure first) = _
    simp
  | cons p ps ih =>
    intro first acc hchain hfound
    rw [chainWf, Bool.and_eq_true] at hchain
    rw [List.all_cons, Bool.and_eq_true] at hfound
    rw [proc_issue_loop, if_pos hchain.1]
    rw [pageItems_ok first hfound.1]
    show proc_issue_loop (acc ++ pageItemsPure first) p ps = _
    rw [ih p _ hchain.2 hfound.2]
    simp

/-- C4: over any cursor-paginated issue-response sequence whose non-terminal
    pages carry a `next` link and whose terminal page does not (and whose
    articles all have a Formatted Text representation), `proc_issue` emits the
    items of every page, including the terminal one, exactly once and in page
    order. -/
theorem claim_C4 (first : IssuePage) (rest : List IssuePage)
    (hchain : chainWf first rest = true)
    (hfound : (first :: rest).all pageAllFound = true) :
    proc_issue first rest = .ok (((first :: rest).map pageItemsPure).flatten) := by
  unfold proc_issue
  rw [proc_issue_loop_ok rest first [] hchain hfound]
  rfl

/-- C4 witness: the spec's synthetic 3-page issue listing (pages 1–2 with a
    `next` cursor, page 3 without) yields all items of the three pages exactly
    once, in page order. -/
theorem claim_C4_witness :
    chainWf ⟨[⟨"S1", [⟨"A1", [⟨"PDF", "u0"⟩, ⟨"Formatted Text", "u1"⟩]⟩]⟩], true⟩
        [⟨[⟨"S2", [⟨"A2", [⟨"Formatted Text", "u2"⟩]⟩]⟩], true⟩,
         ⟨[⟨"S3", [⟨"A3", [⟨"Formatted Text", "u3"⟩]⟩]⟩], false⟩] = true ∧
    proc_issue ⟨[⟨"S1", [⟨"A1", [⟨"PDF", "u0"⟩, ⟨"Formatted Text", "u1"⟩]⟩]⟩], true⟩
        [⟨[⟨"S2", [⟨"A2", [⟨"Formatted Text", "u2"⟩]⟩]⟩], true⟩,
         ⟨[⟨"S3", [⟨"A3", [⟨"Formatted Text", "u3"⟩]⟩]⟩], false⟩] =
      .ok [("S1", "A1", "u1"), ("S2", "A2", "u2"), ("S3", "A3", "u3")] :=
  ⟨by decide, by
    rw [claim_C4 _ _ (by decide) (by decide)]
    rfl⟩

theorem formatted_url_err (a : IssueArticle)
    (h : a.text.all (fun item => !(item.type == "Formatted Text")) = true) :
    formatted_url a = .error "StopIteration: no Formatted Text representation" := by
  have hn : a.text.find? (fun item => item.type == "Formatted Text") = none := by
    apply List.find?_eq_none.2
    intro x hx
    have hax := List.all_eq_true.1 h x hx
    rw [Bool.not_eq_true'] at hax
    rw [hax]
    exact Bool.false_ne_true
  unfold formatted_url
  rw [hn]

theorem articlesItems_err (secName : String) :
    ∀ arts : List IssueArticle,
    (∃ a ∈ arts, a.text.all (fun item => !(item.type == "Formatted Text")) = true) →
    ∃ e, articlesItems secName arts = .error e := by
  intro arts
  induction arts with
  | nil => rintro ⟨_, h, _⟩; exact absurd h (List.not_mem_nil _)
  | cons b bs ih =>
    rintro ⟨a, ha, hbad⟩
    rcases List.mem_cons.1 ha with hb | hb
    · subst hb
      exact ⟨_, by rw [articlesItems, formatted_url_err a hbad]⟩
    · rw [articlesItems]
      cases hfu : formatted_url b with
      | error e => exact ⟨e, rfl⟩
      | ok u =>
        obtain ⟨e, he⟩ := ih ⟨a, hb, hbad⟩
        rw [he]
        exact ⟨e, rfl⟩

/-- A section list containing an article with no Formatted Text representation
    makes the section loop fail. -/
theorem sectionsItems_err :
    ∀ secs : List IssueSection,
    (∃ sec ∈ secs, ∃ a ∈ sec.sectionArticles,
      a.text.all (fun item => !(item.type == "Formatted Text")) = true) →
    ∃ e, sectionsItems secs = .error e := by
  intro secs
  induction secs with
  | nil => rintro ⟨_, h, _⟩; exact absurd h (List.not_mem_nil _)
  | cons sec secs ih =>
    rintro ⟨s, hs, a, ha, hbad⟩
    rcases List.mem_cons.1 hs with hhead | htail
    · subst hhead
      obtain ⟨e, he⟩ := articlesItems_err s.name s.sectionArticles ⟨a, ha, hbad⟩
      exact ⟨e, by rw [sectionsItems, he]⟩
    · rw [sectionsItems]
      cases hsi : articlesItems sec.name sec.sectionArticles with
      | error e => exact ⟨e, rfl⟩
      | ok items =>
        obtain ⟨e, he⟩ := ih ⟨s, htail, a, ha, hbad⟩
        rw [he]
        exact ⟨e, rfl⟩

theorem proc_issue_loop_err :
    ∀ (rest : List IssuePage) (first : IssuePage) (acc : List (String × String × String)),
    chainWf first rest = true →
    (∃ p ∈ first :: rest, ∃ sec ∈ p.articles, ∃ a ∈ sec.sectionArticles,
      a.text.all (fun item => !(item.type == "Formatted Text")) = true) →
    ∃ e, proc_issue_loop acc first rest = .error e := by
  intro rest
  induction rest with
  | nil =>
    rintro first acc _ ⟨p, hp, hbad⟩
    rw [List.mem_singleton] at hp
    subst hp
    obtain ⟨e, he⟩ := sectionsItems_err p.articles hbad
    rw [proc_issue_loop]
    by_cases hnx : p.hasNext = true
    · rw [if_pos hnx]
      exact ⟨e, by rw [show pageItems p = .error e from he]⟩
    · rw [if_neg hnx]
      exact ⟨e, by rw [show pageItems p = .error e from he]⟩
  | cons p ps ih =>
    rintro first acc hchain ⟨q, hq, hbad⟩
    rw [chainWf, Bool.and_eq_true] at hchain
    rw [proc_issue_loop, if_pos hchain.1]
    rcases List.mem_cons.1 hq with hhead | htail
    · subst hhead
      obtain ⟨e, he⟩ := sectionsItems_err q.articles hbad
      exact ⟨e, by rw [show pageItems q = .error e from he]⟩
    · cases hpi : pageItems first with
      | error e => exact ⟨e, rfl⟩
      | ok items => exact ih p (acc ++ items) hchain.2 ⟨q, htail, hbad⟩

/-- C6: under well-formed pagination, if any article encountered during the
    issue traversal has no text representation tagged "Formatted Text", the
    traversal of that issue fails hard — `proc_issue` returns an error rather
    than skipping the article and continuing. -/
theorem claim_C6 (first : IssuePage) (rest : List IssuePage)
    (hchain : chainWf first rest = true)
    (hbad : ∃ p ∈ first :: rest, ∃ sec ∈ p.articles, ∃ a ∈ sec.sectionArticles,
      a.text.all (fun item => !(item.type == "Formatted Text")) = true) :
    ∃ e, proc_issue first rest = .error e :=
  proc_issue_loop_err rest first [] hchain hbad

/-- C6 witness: a one-page issue whose sole article has only a PDF
    representation makes the traversal fail. -/
theorem claim_C6_witness :
    chainWf ⟨[⟨"S1", [⟨"A1", [⟨"PDF", "u0"⟩]⟩]⟩], false⟩ [] = true ∧
    ∃ e, proc_issue ⟨[⟨"S1", [⟨"A1", [⟨"PDF", "u0"⟩]⟩]⟩], false⟩ [] = .error e :=
  ⟨by decide, claim_C6 ⟨[⟨"S1", [⟨"A1", [⟨"PDF", "u0"⟩]⟩]⟩], false⟩ [] (by decide)
    (by decide)⟩

/-! ## Zero-match lemmas and C8 -/

theorem matchLen_nil : matchLen [] = none := by decide

theorem re_search_eq_false_iff :
    ∀ s : List Char, re_search s = false ↔ ∀ u v : List Char, s = u ++ v → matchLen v = none := by
  intro s
  induction s with
  | nil =>
    constructor
    · intro _ u v huv
      rw [List.nil_eq, List.append_eq_nil] at huv
      rw [huv.2, matchLen_nil]
    · intro _
      rw [re_search, matchLen_nil]
      rfl
  | cons c cs ih =>
    rw [re_search, Bool.or_eq_false_iff]
    have hiff : (matchLen (c :: cs)).isSome = false ↔ matchLen (c :: cs) = none := by
      cases matchLen (c :: cs) <;> simp
    rw [hiff]
    constructor
    · rintro ⟨hm, hrest⟩ u v huv
      cases u with
      | nil => rw [List.nil_append] at huv; rw [← huv]; exact hm
      | cons x xs =>
        rw [List.cons_append, List.cons.injEq] at huv
        exact (ih.1 hrest) xs v huv.2
    · intro hall
      refine ⟨hall [] (c :: cs) rfl, ih.2 ?_⟩
      intro u v huv
      exact hall (c :: u) v (by rw [huv]; rfl)

theorem scanSplit_no_match :
    ∀ (fuel : Nat) (s acc : List Char),
    (∀ u v : List Char, s = u ++ v → matchLen v = none) →
    scanSplit fuel acc s = [acc ++ s] := by
  intro fuel
  induction fuel with
  | zero => intro s acc _; rfl
  | succ f ih =>
    intro s acc hall
    cases s with
    | nil => rw [scanSplit, List.append_nil]
    | cons c cs =>
      rw [scanSplit, hall [] (c :: cs) rfl]
      rw [ih cs (acc ++ [c]) (fun u v huv => hall (c :: u) v (by rw [huv]; rfl))]
      simp

theorem re_split_no_match (s : List Char) (h : re_search s = false) :
    re_split s = [s] := by
  unfold re_split
  rw [scanSplit_no_match s.length s [] ((re_search_eq_false_iff s).1 h)]
  rfl

/-- C8: an article whose cleaned text contains no boundary-pattern match
    splits into a single segment, classified as undefined (speaker and speech
    index sets empty), all five validation checks succeed, and the parse
    emits an empty record list — the degenerate case is a success. -/
theorem claim_C8 (article_text : List Char)
    (h : re_search (collapseWs article_text) = false) :
    re_split (collapseWs article_text) = [collapseWs article_text] ∧
    speaker_ixs (re_split (collapseWs article_text)) = [] ∧
    speech_ixs (re_split (collapseWs article_text)) = [] ∧
    undefined_ixs (re_split (collapseWs article_text)) = [0] ∧
    validate_split (re_split (collapseWs article_text)) = none ∧
    ∀ (σ : Type) (procSpeech : List Char → σ) (mapping : List (List Char × List Char)),
      parse_articles procSpeech mapping article_text = .ok [] := by
  have hsplit : re_split (collapseWs article_text) = [collapseWs article_text] :=
    re_split_no_match _ h
  have hsp : speaker_ixs (re_split (collapseWs article_text)) = [] := by
    rw [hsplit]
    simp [speaker_ixs, List.enum, List.enumFrom, h]
  have hspc : speech_ixs (re_split (collapseWs article_text)) = [] := by
    rw [speech_ixs, hsp]
    rfl
  have hund : undefined_ixs (re_split (collapseWs article_text)) = [0] := by
    rw [undefined_ixs, hsp, hspc, hsplit]
    simp
    decide
  have hval : validate_split (re_split (collapseWs article_text)) = none := by
    rw [validate_split, ix_len_check, speech_ixs_check, speaker_ixs_check,
      undefined_ixs_check, speaker_speech_correspond_check, hsp, hspc, hund, hsplit]
    simp
  refine ⟨hsplit, hsp, hspc, hund, hval, ?_⟩
  intro σ procSpeech mapping
  simp only [parse_articles, hval, hsp, hspc]
  simp

/-- C8 witness at a concrete boundary-free article text. -/
theorem claim_C8_witness :
    re_search (collapseWs "hello there".toList) = false ∧
    re_split (collapseWs "hello there".toList) = [collapseWs "hello there".toList] ∧
    speaker_ixs (re_split (collapseWs "hello there".toList)) = [] ∧
    speech_ixs (re_split (collapseWs "hello there".toList)) = [] ∧
    undefined_ixs (re_split (collapseWs "hello there".toList)) = [0] ∧
    validate_split (re_split (collapseWs "hello there".toList)) = none ∧
    ∀ (σ : Type) (procSpeech : List Char → σ) (mapping : List (List Char × List Char)),
      parse_articles procSpeech mapping "hello there".toList = .ok [] :=
  ⟨by decide, claim_C8 "hello there".toList (by decide)⟩

/-! ## Validation lemmas and C1 -/

theorem filter_length_split {α : Type} (p : α → Bool) :
    ∀ l : List α, (l.filter p).length + (l.filter (fun a => !(p a))).length = l.length := by
  intro l
  induction l with
  | nil => rfl
  | cons a l ih => by_cases h : p a = true <;> simp [List.filter_cons, h, ← ih] <;> omega

theorem mem_speaker_ixs_lt (l : List (List Char)) (i : Nat) (h : i ∈ speaker_ixs l) :
    i < l.length := by
  unfold speaker_ixs at h
  obtain ⟨p, hp, hfst⟩ := List.mem_map.1 h
  have hpe : p ∈ l.enum := List.mem_of_mem_filter hp
  rw [List.enum_eq_zip_range] at hpe
  have := (List.of_mem_zip hpe).1
  rw [List.mem_range] at this
  exact hfst ▸ this

theorem speaker_check_true (l : List (List Char)) : speaker_ixs_check l = true := by
  rw [speaker_ixs_check, List.all_eq_true]
  intro i hi
  simpa using mem_speaker_ixs_lt l i hi

theorem undefined_check_true (l : List (List Char)) : undefined_ixs_check l = true := by
  rw [undefined_ixs_check, List.all_eq_true]
  intro i hi
  have := List.mem_range.1 (List.mem_of_mem_filter (by exact hi : i ∈ undefined_ixs l))
  simpa using this

/-- If the first check (index-count accounting) passes, every speech index is
    in range: the counting forces the speaker and speech index sets to be
    disjoint and contained in the index range. -/
theorem ix_len_imp_speech_check (l : List (List Char)) (hA : ix_len_check l = true) :
    speech_ixs_check l = true := by
  classical
  set n := l.length with hn
  set spk := speaker_ixs l with hspk
  set spc := speech_ixs l with hspc
  set posp : Nat → Bool := fun i => decide (i ∈ spk ++ spc) with hposp
  have hund : undefined_ixs l = (List.range n).filter (fun i => !(posp i)) := rfl
  have hsplitlen := filter_length_split posp (List.range n)
  rw [List.length_range] at hsplitlen
  have hA' : spk.length + spc.length + (undefined_ixs l).length = n := by
    have h0 := of_decide_eq_true (by exact hA)
    simp only [List.length_append] at h0
    rw [hspk, hspc, hn]
    omega
  have hcount : spk.length + spc.length = ((List.range n).filter posp).length := by
    rw [hund] at hA'
    omega
  -- Finset comparison
  have hposF : ((List.range n).filter posp).toFinset ⊆ spk.toFinset ∪ spc.toFinset := by
    intro x hx
    rw [List.mem_toFinset, List.mem_filter, hposp] at hx
    have hx2 := of_decide_eq_true hx.2
    rw [Finset.mem_union, List.mem_toFinset, List.mem_toFinset]
    exact List.mem_append.1 hx2
  have hnodup : ((List.range n).filter posp).Nodup := (List.nodup_range n).filter posp
  have hcard1 : ((List.range n).filter posp).toFinset.card =
      ((List.range n).filter posp).length := List.toFinset_card_of_nodup hnodup
  have hcard2 : (spk.toFinset ∪ spc.toFinset).card ≤ spk.length + spc.length :=
    le_trans (Finset.card_union_le _ _)
      (Nat.add_le_add spk.toFinset_card_le spc.toFinset_card_le)
  have heq : ((List.range n).filter posp).toFinset = spk.toFinset ∪ spc.toFinset :=
    Finset.eq_of_subset_of_card_le hposF (by omega)
  rw [speech_ixs_check, List.all_eq_true]
  intro x hx
  have hxu : x ∈ spk.toFinset ∪ spc.toFinset :=
    Finset.mem_union_right _ (List.mem_toFinset.2 hx)
  rw [← heq, List.mem_toFinset, List.mem_filter, List.mem_range] at hxu
  simpa using hxu.1

theorem validate_split_eq_none_of_ix_len (l : List (List Char))
    (hA : ix_len_check l = true) : validate_split l = none := by
  unfold validate_split
  rw [hA, ix_len_imp_speech_check l hA, speaker_check_true, undefined_check_true,
    correspond_check_true]
  rfl

/-- C1 counterexample to the claim's per-check testability: check (c), that
    every speaker index is in range, holds for every split by construction,
    so no split (synthetic or otherwise) violates exactly that check and no
    split ever yields its named failure string. -/
theorem claim_C1_counterexample :
    (¬ ∃ l : List (List Char), speaker_ixs_check l = false) ∧
    (¬ ∃ l : List (List Char), validate_split l = some msg_speaker) := by
  constructor
  · rintro ⟨l, hl⟩
    rw [speaker_check_true] at hl
    exact absurd hl (by decide)
  · rintro ⟨l, hl⟩
    unfold validate_split at hl
    rw [speaker_check_true] at hl
    split_ifs at hl <;> simp_all <;>
      exact absurd (Option.some.injEq _ _ ▸ hl) (by decide)

/-- C1 (amended): the five checks run in the source order with the first
    violated check's named failure string returned as the whole result;
    checks (c), (d) and (e) hold for every split, check (b) holds whenever
    check (a) does, so a split violating check (a) yields exactly check (a)'s
    named failure, and a split satisfying check (a) passes validation. -/
theorem claim_C1 (l : List (List Char)) :
    (speaker_ixs_check l = true ∧ undefined_ixs_check l = true ∧
      speaker_speech_correspond_check l = true) ∧
    (ix_len_check l = true → speech_ixs_check l = true ∧ validate_split l = none) ∧
    (ix_len_check l = false → validate_split l = some msg_ix_len) := by
  refine ⟨⟨speaker_check_true l, undefined_check_true l, correspond_check_true l⟩, ?_, ?_⟩
  · intro hA
    exact ⟨ix_len_imp_speech_check l hA, validate_split_eq_none_of_ix_len l hA⟩
  · intro hA
    unfold validate_split
    rw [hA]
    rfl

/-- C1 witness: a split satisfying check (a) validates successfully, and a
    synthetic split violating check (a) yields exactly its named failure. -/
theorem claim_C1_witness :
    validate_split ["x ".toList, "Mr. AB".toList, " y".toList] = none ∧
    validate_split ["Mr. AB".toList, "Mr. CD".toList, "x".toList] = some msg_ix_len :=
  ⟨((claim_C1 ["x ".toList, "Mr. AB".toList, " y".toList]).2.1 (by decide)).2,
   (claim_C1 ["Mr. AB".toList, "Mr. CD".toList, "x".toList]).2.2 (by decide)⟩

/-! ## Boundary-match structure lemmas (towards C3) -/

theorem dropLit_none_of_ne (l : Char) (ls : List Char) (c : Char) (cs : List Char)
    (h : c ≠ l) : dropLit (l :: ls) (c :: cs) = none := by
  rw [dropLit, if_neg h]

theorem dropLit_none_of_ne2 (a b : Char) (ls : List Char) (c : Char) (cs : List Char)
    (h : c ≠ b) : dropLit (a :: b :: ls) (a :: c :: cs) = none := by
  rw [dropLit, if_pos rfl, dropLit, if_neg h]

theorem matchAlt_self (lit rest : List Char) (h2 : 2 ≤ takeRunLen nameChar rest) :
    matchAlt lit (lit ++ rest) = some (lit.length + takeRunLen nameChar rest) := by
  unfold matchAlt
  rw [(dropLit_eq_some lit (lit ++ rest) rest).2 rfl]
  simp only [h2, if_pos]

theorem matchAlt_none_of_dropLit (lit s : List Char) (h : dropLit lit s = none) :
    matchAlt lit s = none := by
  unfold matchAlt
  rw [h]

theorem matchLen_The (rest : List Char) :
    matchLen ("The SPEAKER".toList ++ rest) = some 11 := by
  unfold matchLen
  rw [(dropLit_eq_some "The SPEAKER".toList ("The SPEAKER".toList ++ rest) rest).2 rfl]
  rfl

theorem matchLen_Mr (rest : List Char) (h2 : 2 ≤ takeRunLen nameChar rest) :
    matchLen ("Mr. ".toList ++ rest) =
      some ("Mr. ".toList.length + takeRunLen nameChar rest) := by
  unfold matchLen
  rw [show dropLit "The SPEAKER".toList ("Mr. ".toList ++ rest) = none from
      dropLit_none_of_ne _ _ _ _ (by decide),
    matchAlt_self "Mr. ".toList rest h2]

theorem matchLen_Ms (rest : List Char) (h2 : 2 ≤ takeRunLen nameChar rest) :
    matchLen ("Ms. ".toList ++ rest) =
      some ("Ms. ".toList.length + takeRunLen nameChar rest) := by
  unfold matchLen
  rw [show dropLit "The SPEAKER".toList ("Ms. ".toList ++ rest) = none from
      dropLit_none_of_ne _ _ _ _ (by decide),
    show matchAlt "Mr. ".toList ("Ms. ".toList ++ rest) = none from
      matchAlt_none_of_dropLit _ _ (dropLit_none_of_ne2 _ _ _ _ _ (by decide)),
    matchAlt_self "Ms. ".toList rest h2]

theorem matchLen_Miss (rest : List Char) (h2 : 2 ≤ takeRunLen nameChar rest) :
    matchLen ("Miss ".toList ++ rest) =
      some ("Miss ".toList.length + takeRunLen nameChar rest) := by
  unfold matchLen
  rw [show dropLit "The SPEAKER".toList ("Miss ".toList ++ rest) = none from
      dropLit_none_of_ne _ _ _ _ (by decide),
    show matchAlt "Mr. ".toList ("Miss ".toList ++ rest) = none from
      matchAlt_none_of_dropLit _ _ (dropLit_none_of_ne2 _ _ _ _ _ (by decide)),
    show matchAlt "Ms. ".toList ("Miss ".toList ++ rest) = none from
      matchAlt_none_of_dropLit _ _ (dropLit_none_of_ne2 _ _ _ _ _ (by decide)),
    matchAlt_self "Miss ".toList rest h2]

theorem matchAlt_some_cases (lit s : List Char) (n : Nat) (h : matchAlt lit s = some n) :
    ∃ rest, s = lit ++ rest ∧ 2 ≤ takeRunLen nameChar rest ∧
      n = lit.length + takeRunLen nameChar rest := by
  unfold matchAlt at h
  cases hd : dropLit lit s with
  | none => rw [hd] at h; exact absurd h (by simp)
  | some rest =>
    rw [hd] at h
    have h' : (if 2 ≤ takeRunLen nameChar rest then
        some (lit.length + takeRunLen nameChar rest) else none) = some n := h
    by_cases h2 : 2 ≤ takeRunLen nameChar rest
    · rw [if_pos h2] at h'
      exact ⟨rest, (dropLit_eq_some lit s rest).1 hd, h2, (Option.some.injEq _ _ ▸ h').symm⟩
    · rw [if_neg h2] at h'
      exact absurd h' (by simp)

/-- Case analysis on a successful boundary match: it is one of the four
    alternatives, with its literal and (for the titled ones) a greedy run of
    at least two name characters. -/
theorem matchLen_some_cases (s : List Char) (n : Nat) (h : matchLen s = some n) :
    (∃ rest, s = "The SPEAKER".toList ++ rest ∧ n = 11) ∨
    (∃ rest, s = "Mr. ".toList ++ rest ∧ 2 ≤ takeRunLen nameChar rest ∧
      n = "Mr. ".toList.length + takeRunLen nameChar rest) ∨
    (∃ rest, s = "Ms. ".toList ++ rest ∧ 2 ≤ takeRunLen nameChar rest ∧
      n = "Ms. ".toList.length + takeRunLen nameChar rest) ∨
    (∃ rest, s = "Miss ".toList ++ rest ∧ 2 ≤ takeRunLen nameChar rest ∧
      n = "Miss ".toList.length + takeRunLen nameChar rest) := by
  unfold matchLen at h
  cases hThe : dropLit "The SPEAKER".toList s with
  | some rest =>
    rw [hThe] at h
    exact Or.inl ⟨rest, (dropLit_eq_some _ s rest).1 hThe,
      by simpa using (Option.some.injEq _ _ ▸ h).symm⟩
  | none =>
    rw [hThe] at h
    cases hMr : matchAlt "Mr. ".toList s with
    | some m =>
      rw [hMr] at h
      obtain ⟨rest, hs, h2, hn⟩ := matchAlt_some_cases _ _ _ hMr
      exact Or.inr (Or.inl ⟨rest, hs, h2, by rw [← hn]; exact (Option.some.injEq _ _ ▸ h).symm⟩)
    | none =>
      rw [hMr] at h
      cases hMs : matchAlt "Ms. ".toList s with
      | some m =>
        rw [hMs] at h
        obtain ⟨rest, hs, h2, hn⟩ := matchAlt_some_cases _ _ _ hMs
        exact Or.inr (Or.inr (Or.inl ⟨rest, hs, h2,
          by rw [← hn]; exact (Option.some.injEq _ _ ▸ h).symm⟩))
      | none =>
        rw [hMs] at h
        obtain ⟨rest, hs, h2, hn⟩ := matchAlt_some_cases _ _ _ h
        exact Or.inr (Or.inr (Or.inr ⟨rest, hs, h2, hn⟩))

theorem matchLen_pos (s : List Char) (n : Nat) (h : matchLen s = some n) : 1 ≤ n := by
  rcases matchLen_some_cases s n h with ⟨_, _, hn⟩ | ⟨_, _, _, hn⟩ | ⟨_, _, _, hn⟩ |
    ⟨_, _, _, hn⟩ <;> subst hn <;> simp <;> omega

theorem takeRunLen_le_length (p : Char → Bool) : ∀ l : List Char, takeRunLen p l ≤ l.length := by
  intro l
  induction l with
  | nil => exact Nat.le_refl 0
  | cons c cs ih =>
    rw [takeRunLen]
    by_cases h : p c = true
    · rw [if_pos h]; simpa using ih
    · rw [if_neg h]; simp

theorem takeRunLen_append_ge (p : Char → Bool) :
    ∀ a b : List Char, takeRunLen p a ≤ takeRunLen p (a ++ b) := by
  intro a b
  induction a with
  | nil => simp [takeRunLen]
  | cons c cs ih =>
    rw [List.cons_append, takeRunLen, takeRunLen]
    by_cases h : p c = true
    · rw [if_pos h, if_pos h]; omega
    · rw [if_neg h, if_neg h]

theorem takeRunLen_take (p : Char → Bool) :
    ∀ l : List Char, takeRunLen p (l.take (takeRunLen p l)) = takeRunLen p l := by
  intro l
  induction l with
  | nil => rfl
  | cons c cs ih =>
    rw [takeRunLen]
    by_cases h : p c = true
    · rw [if_pos h, List.take_succ_cons, takeRunLen, if_pos h, ih]
    · rw [if_neg h]
      rfl

theorem matchLen_take (s : List Char) (n : Nat) (h : matchLen s = some n) :
    matchLen (s.take n) = some n := by
  rcases matchLen_some_cases s n h with ⟨rest, hs, hn⟩ | ⟨rest, hs, h2, hn⟩ |
    ⟨rest, hs, h2, hn⟩ | ⟨rest, hs, h2, hn⟩ <;> subst hs <;> subst hn
  · rw [show (11 : Nat) = "The SPEAKER".toList.length + 0 from rfl, List.take_append,
      List.take_zero, List.append_nil]
    exact matchLen_The []
  · rw [List.take_append, matchLen_Mr _ (by rw [takeRunLen_take]; exact h2), takeRunLen_take]
  · rw [List.take_append, matchLen_Ms _ (by rw [takeRunLen_take]; exact h2), takeRunLen_take]
  · rw [List.take_append, matchLen_Miss _ (by rw [takeRunLen_take]; exact h2), takeRunLen_take]

theorem matchLen_append (v w : List Char) (n : Nat) (h : matchLen v = some n) :
    ∃ m, matchLen (v ++ w) = some m := by
  rcases matchLen_some_cases v n h with ⟨rest, hs, _⟩ | ⟨rest, hs, h2, _⟩ |
    ⟨rest, hs, h2, _⟩ | ⟨rest, hs, h2, _⟩ <;> subst hs <;> rw [List.append_assoc]
  · exact ⟨11, matchLen_The _⟩
  · exact ⟨_, matchLen_Mr _ (le_trans h2 (takeRunLen_append_ge _ rest w))⟩
  · exact ⟨_, matchLen_Ms _ (le_trans h2 (takeRunLen_append_ge _ rest w))⟩
  · exact ⟨_, matchLen_Miss _ (le_trans h2 (takeRunLen_append_ge _ rest w))⟩

theorem re_search_of_isSome (s : List Char) (h : (matchLen s).isSome = true) :
    re_search s = true := by
  cases s with
  | nil => rw [matchLen_nil] at h; exact absurd h (by decide)
  | cons c cs => rw [re_search, h, Bool.true_or]

theorem matchLen_none_of_append (v s : List Char) (hv : matchLen (v ++ s) = none) :
    matchLen v = none := by
  cases h : matchLen v with
  | none => rfl
  | some n =>
    obtain ⟨m, hm⟩ := matchLen_append v s n h
    rw [hm] at hv
    exact absurd hv (by simp)

theorem re_search_false_of_inv (acc s : List Char)
    (H : ∀ u v : List Char, acc = u ++ v → v ≠ [] → matchLen (v ++ s) = none) :
    re_search acc = false := by
  rw [re_search_eq_false_iff]
  intro u v huv
  cases v with
  | nil => exact matchLen_nil
  | cons c cs =>
    exact matchLen_none_of_append _ s (H u (c :: cs) huv (by simp))

/-- The plain/captured segments of the capturing split, filtered by
    `re.search`, are exactly the boundary matches: the accumulated plain text
    never contains a match, every capture does. -/
theorem scan_filter : ∀ (fuel : Nat) (s acc : List Char),
    s.length ≤ fuel →
    (∀ u v : List Char, acc = u ++ v → v ≠ [] → matchLen (v ++ s) = none) →
    (scanSplit fuel acc s).filter re_search = matchesScan fuel s := by
  intro fuel
  induction fuel with
  | zero =>
    intro s acc hlen H
    have hs : s = [] := List.length_eq_zero.1 (Nat.le_zero.1 hlen)
    subst hs
    rw [scanSplit, matchesScan, List.append_nil, List.filter_cons,
      re_search_false_of_inv acc [] H]
    rfl
  | succ f ih =>
    intro s acc hlen H
    cases s with
    | nil =>
      rw [scanSplit, matchesScan, List.filter_cons, re_search_false_of_inv acc [] H]
      rfl
    | cons c cs =>
      rw [scanSplit, matchesScan]
      cases hm : matchLen (c :: cs) with
      | none =>
        apply ih cs (acc ++ [c]) (by simpa using hlen)
        intro u v huv hv
        rcases List.append_eq_append_iff.1 huv with ⟨a', _, hb⟩ | ⟨c', hacc, hv2⟩
        · cases a' with
          | nil =>
            rw [List.nil_append] at hb
            rw [← hb]
            exact hm
          | cons x xs =>
            rw [List.cons_append] at hb
            injection hb with _ h2
            exact absurd (List.append_eq_nil.1 h2.symm).2 hv
        · cases c' with
          | nil =>
            rw [List.nil_append] at hv2
            rw [hv2]
            show matchLen ([c] ++ cs) = none
            exact hm
          | cons x xs =>
            rw [hv2, List.append_assoc]
            show matchLen ((x :: xs) ++ (c :: cs)) = none
            exact H u (x :: xs) hacc (by simp)
      | some n =>
        have hacc : re_search acc = false := re_search_false_of_inv acc (c :: cs) H
        have hcap : re_search ((c :: cs).take n) = true :=
          re_search_of_isSome _ (by rw [matchLen_take _ _ hm]; rfl)
        rw [List.filter_cons, hacc, List.filter_cons, hcap]
        have hlen2 : ((c :: cs).drop n).length ≤ f := by
          rw [List.length_drop]
          have := matchLen_pos _ _ hm
          simp only [List.length_cons] at hlen ⊢
          omega
        rw [ih ((c :: cs).drop n) [] hlen2
          (fun u v huv hv => absurd ((List.append_eq_nil).1 huv.symm).2 hv)]
        rfl

/-- The segments of the capturing split that `re.search` hits are exactly the
    boundary matches, in order. -/
theorem re_split_filter (s : List Char) :
    (re_split s).filter re_search = boundary_matches s :=
  scan_filter s.length s [] (le_refl _)
    (fun _ v huv hv => absurd (List.append_eq_nil.1 huv.symm).2 hv)

theorem getD_of_mem_enumFrom :
    ∀ (l : List (List Char)) (k : Nat) (p : Nat × List Char),
    p ∈ List.enumFrom k l → l.getD (p.1 - k) [] = p.2 := by
  intro l
  induction l with
  | nil => intro k p hp; exact absurd hp (List.not_mem_nil _)
  | cons a as ih =>
    intro k p hp
    rw [List.enumFrom] at hp
    rcases List.mem_cons.1 hp with hp | hp
    · subst hp
      simp
    · have hk := List.le_fst_of_mem_enumFrom hp
      have := ih (k + 1) p hp
      have hsub : p.1 - k = (p.1 - (k + 1)) + 1 := by omega
      rw [hsub]
      simpa using this

theorem map_snd_filter_enumFrom (q : List Char → Bool) :
    ∀ (l : List (List Char)) (k : Nat),
    ((List.enumFrom k l).filter (fun x => q x.2)).map Prod.snd = l.filter q := by
  intro l
  induction l with
  | nil => intro k; rfl
  | cons a as ih =>
    intro k
    rw [List.enumFrom]
    by_cases hq : q a = true <;> simp [List.filter_cons, hq, ih (k + 1)]

/-- The speaker segments selected by the speaker indices are the segments
    containing a boundary match, in order. -/
theorem speakers_eq (l : List (List Char)) :
    (speaker_ixs l).map (fun i => l.getD i []) = l.filter re_search := by
  unfold speaker_ixs
  rw [List.map_map]
  rw [show l.enum = List.enumFrom 0 l from rfl]
  rw [List.map_congr_left (g := Prod.snd)
    (fun p hp => by
      have hpe : p ∈ List.enumFrom 0 l := List.mem_of_mem_filter hp
      have := getD_of_mem_enumFrom l 0 p hpe
      simpa using this)]
  exact map_snd_filter_enumFrom re_search l 0

/-- The count of records surviving the "the speaker" filter, when the mapped
    speakers are the boundary matches. -/
theorem count_filter_speakers {σ : Type} (G : Nat → SpeechRec σ) (spk : List Nat)
    (bm : List (List Char))
    (hspeaker : ((spk.map G).map (fun r => r.speaker)) = bm) :
    ((spk.map G).filter
        (fun sp => !(decide (norm_speaker sp.speaker = "the speaker".toList)))).length =
      bm.length - bm.countP (fun m => decide (norm_speaker m = "the speaker".toList)) := by
  rw [← List.countP_eq_length_filter]
  have hcmap := List.countP_map
    (fun m => !(decide (norm_speaker m = "the speaker".toList)))
    (fun r : SpeechRec σ => r.speaker) (spk.map G)
  rw [hspeaker] at hcmap
  rw [show (List.countP
      (fun sp : SpeechRec σ => !(decide (norm_speaker sp.speaker = "the speaker".toList)))
      (spk.map G)) = (List.countP
      ((fun m => !(decide (norm_speaker m = "the speaker".toList))) ∘
        (fun r : SpeechRec σ => r.speaker)) (spk.map G)) from rfl]
  rw [← hcmap]
  have hsplit2 := filter_length_split
    (fun m => decide (norm_speaker m = "the speaker".toList)) bm
  rw [List.countP_eq_length_filter, List.countP_eq_length_filter]
  omega

/-- C3: for every article whose boundary split passes validation, the parse
    succeeds and emits one record per boundary match except those whose text
    normalizes (lowercase, strip) to "the speaker", and no such record
    appears in the output. -/
theorem claim_C3 {σ : Type} (procSpeech : List Char → σ)
    (mapping : List (List Char × List Char)) (article_text : List Char)
    (h : validate_split (re_split (collapseWs article_text)) = none) :
    ∃ recs, parse_articles procSpeech mapping article_text = .ok recs ∧
      recs.length = (boundary_matches (collapseWs article_text)).length -
        (boundary_matches (collapseWs article_text)).countP
          (fun m => decide (norm_speaker m = "the speaker".toList)) ∧
      ∀ r ∈ recs, ¬ norm_speaker r.speaker = "the speaker".toList := by
  refine ⟨(((speaker_ixs (re_split (collapseWs article_text))).zip
      (speech_ixs (re_split (collapseWs article_text)))).map
      (fun p => { speaker := (re_split (collapseWs article_text)).getD p.1 []
                  party := get_party ((re_split (collapseWs article_text)).getD p.1 []) mapping
                  speech := procSpeech ((re_split (collapseWs article_text)).getD p.2 []) })).filter
      (fun sp => !(decide (norm_speaker sp.speaker = "the speaker".toList))), ?_, ?_, ?_⟩
  · simp only [parse_articles, h]
  · have hzip : (speaker_ixs (re_split (collapseWs article_text))).zip
        (speech_ixs (re_split (collapseWs article_text))) =
        (speaker_ixs (re_split (collapseWs article_text))).map (fun i => (i, i + 1)) := by
      rw [speech_ixs]
      have h0 := List.zip_map' id (fun x => x + 1)
        (speaker_ixs (re_split (collapseWs article_text)))
      rw [List.map_id] at h0
      simpa using h0
    rw [hzip, List.map_map]
    apply count_filter_speakers
    rw [List.map_map]
    show List.map (fun i => (re_split (collapseWs article_text)).getD i [])
      (speaker_ixs (re_split (collapseWs article_text))) =
      boundary_matches (collapseWs article_text)
    rw [speakers_eq, re_split_filter]
  · intro r hr
    have := List.of_mem_filter hr
    simpa using this

/-- C3 witness at a concrete article with two boundary matches, one of which
    is the presiding officer: one record is emitted. -/
theorem claim_C3_witness :
    validate_split (re_split (collapseWs "The SPEAKER. Order. Mr. AB. Hi.".toList)) = none ∧
    ∃ recs, parse_articles (fun s => s) ([] : List (List Char × List Char))
        "The SPEAKER. Order. Mr. AB. Hi.".toList = .ok recs ∧
      recs.length =
        (boundary_matches (collapseWs "The SPEAKER. Order. Mr. AB. Hi.".toList)).length -
          (boundary_matches (collapseWs "The SPEAKER. Order. Mr. AB. Hi.".toList)).countP
            (fun m => decide (norm_speaker m = "the speaker".toList)) ∧
      ∀ r ∈ recs, ¬ norm_speaker r.speaker = "the speaker".toList :=
  ⟨by decide, claim_C3 (fun s => s) [] "The SPEAKER. Order. Mr. AB. Hi.".toList (by decide)⟩

end CongRec
